import Mathlib

/-!
Verification development for the `public_inbox` plugin
(`src/did/plugins/public_inbox.py`): a shallow embedding of its data
model (`Message`), the message deduplicator (`_unique_messages`), the
thread resolver (`PublicInbox.get_all_threads` together with
`PublicInbox.__get_thread_root`), the permalink construction
(`PublicInbox._get_message_url`) and the two classifier views
(`NewThreads.fetch`, `InvolvedThreads.fetch`), followed by theorems
about them.

Network transport is abstracted: an `Archive` record carries the parsed
mbox batch returned by the search request and, for each message id, the
parsed mbox batch returned by the per-thread fetch.  Raw mail records
are modelled with their relevant headers pre-extracted; the `Date`
header is modelled as an already parsed timestamp (date-parse failures
are outside the properties treated here).
-/

/-- A calendar timestamp as produced by `email.utils.parsedate_to_datetime`:
`day` is the proleptic ordinal of the calendar date (what Python's
`datetime.date()` projection compares), `tod` the time of day within it. -/
structure PyDateTime where
  day : Int
  tod : Nat
deriving DecidableEq, Repr

/-- `did.base.Date`: a wrapper whose `.date` attribute is a calendar date,
modelled by its proleptic ordinal. -/
structure Date where
  date : Int
deriving DecidableEq, Repr

/-- One raw mail record from a parsed mbox, with the header fields the
plugin reads.  `msg[key]` in Python returns `None` for an absent header,
hence the `Option` fields. -/
structure RawMsg where
  messageId : Option String
  inReplyTo : Option String
  subjectHdr : Option String
  fromHdr : String
  dateVal : PyDateTime
deriving DecidableEq, Repr

/-- `msgid.lstrip("<").rstrip(">")`: remove every leading `<` and every
trailing `>` character. -/
def pyStripMsgId (s : String) : String :=
  String.mk (((s.toList.dropWhile (fun c => c == '<')).reverse.dropWhile
      (fun c => c == '>')).reverse)

/-- The whitespace characters recognised by Python's `str.split()` (the
ASCII repertoire; exotic Unicode whitespace is outside this model). -/
def isPySpace (c : Char) : Bool :=
  c == ' ' || c == '\t' || c == '\n' || c == '\r' || c == '\x0b' || c == '\x0c'

/-- `str.splitlines` on a character list: cut at `\n`, `\r` and the
combined `\r\n`, with no empty final line after a trailing break.
The accumulator holds the current line reversed. -/
def pySplitlinesAux : List Char → List Char → List (List Char)
  | [], acc => [acc.reverse]
  | '\r' :: '\n' :: rest, acc =>
      acc.reverse :: (if rest.isEmpty then [] else pySplitlinesAux rest [])
  | '\r' :: rest, acc =>
      acc.reverse :: (if rest.isEmpty then [] else pySplitlinesAux rest [])
  | '\n' :: rest, acc =>
      acc.reverse :: (if rest.isEmpty then [] else pySplitlinesAux rest [])
  | c :: rest, acc => pySplitlinesAux rest (c :: acc)

/-- `str.splitlines`: the empty string yields no lines at all. -/
def pySplitlines (s : List Char) : List (List Char) :=
  if s.isEmpty then [] else pySplitlinesAux s []

/-- `str.split()` (no separator argument) on a character list: maximal
runs of non-whitespace characters, empty tokens discarded.  The
accumulator holds the current token reversed. -/
def pySplitAux : List Char → List Char → List (List Char)
  | [], acc => if acc.isEmpty then [] else [acc.reverse]
  | c :: rest, acc =>
      if isPySpace c then
        if acc.isEmpty then pySplitAux rest []
        else acc.reverse :: pySplitAux rest []
      else pySplitAux rest (c :: acc)

/-- `str.split()` starting from an empty token accumulator. -/
def pySplit (s : List Char) : List (List Char) :=
  pySplitAux s []

/-- `" ".join(...)` on character-list tokens. -/
def joinWithSpace : List (List Char) → List Char
  | [] => []
  | [t] => t
  | t :: ts => t ++ ' ' :: joinWithSpace ts

/-- `email.utils.parseaddr(s)[1]` for the address forms used here: for
`Display Name <addr>` the text between the first `<` and the following
`>`, otherwise the string itself. -/
def parseaddrAddr (s : String) : String :=
  if s.toList.contains '<' then
    String.mk (((s.toList.dropWhile (fun c => c ≠ '<')).drop 1).takeWhile
        (fun c => c ≠ '>'))
  else s

/-- Python `"%s" % x` rendering of an optional string: `None` prints as
the four characters `None`. -/
def pyStr : Option String → String
  | none => "None"
  | some s => s

/-- `Message`: the plugin's wrapper around one raw mail record. -/
structure Message where
  msg : RawMsg
deriving DecidableEq, Repr

/-- `Message.id`: the `Message-Id` header normalised by
`lstrip("<").rstrip(">")`, or `None` when the header is absent. -/
def Message.id (m : Message) : Option String :=
  m.msg.messageId.map pyStripMsgId

/-- `Message.parent_id`: the `In-Reply-To` header normalised the same
way, or `None` when absent. -/
def Message.parent_id (m : Message) : Option String :=
  m.msg.inReplyTo.map pyStripMsgId

/-- `Message.subject`: `" ".join(subject.splitlines())` followed by
`" ".join(subject.split())`.  When the `Subject` header is absent the
attribute access on `None` raises `AttributeError`, modelled as
`Except.error`. -/
def Message.subject (m : Message) : Except String String :=
  match m.msg.subjectHdr with
  | none => .error "AttributeError"
  | some s =>
      let s1 := joinWithSpace (pySplitlines s.toList)
      .ok (String.mk (joinWithSpace (pySplit s1)))

/-- `Message.date`: the parsed `Date` header. -/
def Message.date (m : Message) : PyDateTime :=
  m.msg.dateVal

/-- `Message.is_thread_root`: `parent_id() is None`. -/
def Message.is_thread_root (m : Message) : Bool :=
  m.parent_id.isNone

/-- `Message.is_from_user`: compare the address part of the `From`
header with the address part of the supplied identity. -/
def Message.is_from_user (m : Message) (user : String) : Bool :=
  parseaddrAddr user == parseaddrAddr m.msg.fromHdr

/-- `Message.is_between_dates`: `msg_date >= since.date and
msg_date <= until.date` on the date component only. -/
def Message.is_between_dates (m : Message) (since until_ : Date) : Bool :=
  since.date ≤ m.date.day && m.date.day ≤ until_.date

/-- The loop of `_unique_messages`: the `msgs` dict is represented by
the list of ids already seen (only key membership is ever queried). -/
def uniqueGo : List RawMsg → List (Option String) → List Message
  | [], _ => []
  | r :: rest, seen =>
      let m : Message := ⟨r⟩
      if m.id ∈ seen then uniqueGo rest seen
      else m :: uniqueGo rest (m.id :: seen)

/-- `_unique_messages`: wrap each record of the batch in `Message` and
yield it only when its id (the absent id included) was not seen before. -/
def _unique_messages (batch : List RawMsg) : List Message :=
  uniqueGo batch []

/-- The remote archive as the resolver observes it: the parsed mbox of
the search response, and for each message id the parsed mbox of the
thread export `/all/<id>/t.mbox.gz`. -/
structure Archive where
  searchBatch : List RawMsg
  threadBatch : Option String → List RawMsg

/-- `PublicInbox.__get_thread_root`: fetch the thread export for the
message's id and return the first record whose `In-Reply-To` is absent;
when no such record exists the loop falls through and the function
returns `None`. -/
def get_thread_root (arch : Archive) (m : Message) : Option Message :=
  ((arch.threadBatch m.id).map Message.mk).find? (fun x => x.parent_id.isNone)

/-- The loop of `get_all_threads` over the deduplicated candidates, with
the `found` list of already-yielded root ids.  For a non-root candidate
whose thread export has no root, `__get_thread_root` returns `None` and
the subsequent `root.id()` raises `AttributeError`, modelled as
`Except.error`. -/
def resolveGo (arch : Archive) : List Message → List (Option String) →
    Except Unit (List Message)
  | [], _ => .ok []
  | m :: rest, found =>
      if m.id ∈ found then resolveGo arch rest found
      else if m.is_thread_root = false then
        match get_thread_root arch m with
        | none => .error ()
        | some root =>
            if root.id ∈ found then resolveGo arch rest found
            else (resolveGo arch rest (root.id :: found)).map (root :: ·)
      else (resolveGo arch rest (m.id :: found)).map (m :: ·)

/-- `PublicInbox.get_all_threads`: deduplicate the search batch, then
resolve each candidate to a thread root, skipping roots already yielded. -/
def get_all_threads (arch : Archive) : Except Unit (List Message) :=
  resolveGo arch (_unique_messages arch.searchBatch) []

/-- Split a character list at the first occurrence of `://`, returning
the scheme part and the remainder. -/
def schemeSplit : List Char → Option (List Char × List Char)
  | [] => none
  | ':' :: '/' :: '/' :: rest => some ([], rest)
  | c :: rest => (schemeSplit rest).map (fun p => (c :: p.1, p.2))

/-- The scheme-and-authority prefix of a URL string: everything up to
the end of the host part, or empty when the URL carries no `://`. -/
def schemeAndAuthority (url : String) : String :=
  match schemeSplit url.toList with
  | none => ""
  | some (scheme, rest) =>
      String.mk (scheme ++ ':' :: '/' :: '/' ::
        rest.takeWhile (fun c => c ≠ '/'))

/-- `urllib.parse.urljoin(base, path)` for the calls made here, where
`path` is an absolute-path reference (starts with `/`) without
dot-segments: the result keeps only the scheme and authority of the
base URL and replaces its whole path. -/
def urljoin_abspath (base path : String) : String :=
  schemeAndAuthority base ++ path

/-- `PublicInbox.__get_url`. -/
def get_url (url path : String) : String :=
  urljoin_abspath url path

/-- `PublicInbox._get_message_url`: `urljoin(self.url, "/r/%s/" % msg.id())`. -/
def _get_message_url (url : String) (m : Message) : String :=
  get_url url ("/r/" ++ pyStr m.id ++ "/")

/-- The classifier predicate of `NewThreads.fetch`:
`msg.is_from_user(user) and msg.is_between_dates(since, until)`. -/
def startedPred (user : String) (since until_ : Date) (m : Message) : Bool :=
  m.is_from_user user && m.is_between_dates since until_

/-- `NewThreads.fetch`: the resolved thread roots restricted to those
started by the user inside the window. -/
def NewThreads.fetch (arch : Archive) (user : String) (since until_ : Date) :
    Except Unit (List Message) :=
  (get_all_threads arch).map
    (List.filter (fun m => m.is_from_user user && m.is_between_dates since until_))

/-- `InvolvedThreads.fetch`: the resolved thread roots restricted to
those where `not is_from_user or not is_between_dates`. -/
def InvolvedThreads.fetch (arch : Archive) (user : String) (since until_ : Date) :
    Except Unit (List Message) :=
  (get_all_threads arch).map
    (List.filter (fun m => !m.is_from_user user || !m.is_between_dates since until_))

/-! ### Concrete records and archives used to instantiate theorems -/

/-- A root message from alice, dated inside the sample window. -/
def rAlice : RawMsg := ⟨some "m1@x", none, some "a", "alice@x.org", ⟨15, 7⟩⟩

/-- A second root message from bob. -/
def rBob : RawMsg := ⟨some "m2@x", none, some "b", "Bob <bob@x.org>", ⟨11, 0⟩⟩

/-- A duplicate delivery copy of `rBob`: same id after bracket
stripping, different content. -/
def rBobDup : RawMsg := ⟨some "<m2@x>", none, some "b2", "bob@x.org", ⟨12, 0⟩⟩

/-- An id-less record. -/
def rNoId1 : RawMsg := ⟨none, none, some "x", "a@x", ⟨10, 0⟩⟩

/-- A second, different id-less record. -/
def rNoId2 : RawMsg := ⟨none, none, some "y", "b@x", ⟨10, 1⟩⟩

/-- A reply (non-root) pointing at `rRoot`. -/
def rReply : RawMsg := ⟨some "m3@x", some "<m0@x>", some "re", "c@x", ⟨12, 0⟩⟩

/-- A second reply in the same thread. -/
def rReply2 : RawMsg := ⟨some "m4@x", some "<m0@x>", some "re2", "d@x", ⟨12, 1⟩⟩

/-- The root of the thread containing `rReply` and `rReply2`. -/
def rRoot : RawMsg := ⟨some "m0@x", none, some "root", "e@x", ⟨9, 0⟩⟩

/-- Scenario D: two non-root candidates from the same thread; each
thread fetch returns the full thread with its root. -/
def archD : Archive :=
  ⟨[rReply, rReply2], fun i =>
    if i = some "m3@x" then [rReply, rRoot, rReply2]
    else if i = some "m4@x" then [rReply, rRoot, rReply2]
    else []⟩

/-- A degenerate archive: the thread export of the non-root candidate
contains no parentless message. -/
def archNoRoot : Archive := ⟨[rReply], fun _ => [rReply]⟩

/-- Scenario B: the search returns one root by alice inside the window. -/
def archB : Archive := ⟨[rAlice], fun _ => []⟩

/-! ### Lemmas about the deduplicator -/

/-- Every message yielded by `uniqueGo` wraps a record of the batch and
carries an id not in the seen set. -/
theorem uniqueGo_mem {batch : List RawMsg} {seen : List (Option String)}
    {m : Message} (h : m ∈ uniqueGo batch seen) :
    m.id ∉ seen ∧ m.msg ∈ batch := by
  induction batch generalizing seen with
  | nil => simp [uniqueGo] at h
  | cons r rest ih =>
      simp only [uniqueGo] at h
      split at h
      · rcases ih h with ⟨h1, h2⟩
        exact ⟨h1, List.mem_cons_of_mem _ h2⟩
      · rcases List.mem_cons.mp h with rfl | hmem
        · exact ⟨by assumption, List.mem_cons_self _ _⟩
        · rcases ih hmem with ⟨h1, h2⟩
          exact ⟨fun hc => h1 (List.mem_cons_of_mem _ hc),
            List.mem_cons_of_mem _ h2⟩

/-- The ids yielded by `uniqueGo` are pairwise distinct. -/
theorem uniqueGo_nodup (batch : List RawMsg) (seen : List (Option String)) :
    ((uniqueGo batch seen).map Message.id).Nodup := by
  induction batch generalizing seen with
  | nil => simp [uniqueGo]
  | cons r rest ih =>
      simp only [uniqueGo]
      split
      · exact ih seen
      · refine List.nodup_cons.mpr ⟨?_, ih _⟩
        intro hc
        rcases List.mem_map.mp hc with ⟨m, hm, hid⟩
        exact (uniqueGo_mem hm).1 (hid ▸ List.mem_cons_self _ _)

/-- The records underlying `uniqueGo`'s output form a sublist of the
batch: emission order is input order. -/
theorem uniqueGo_sublist (batch : List RawMsg) (seen : List (Option String)) :
    List.Sublist ((uniqueGo batch seen).map Message.msg) batch := by
  induction batch generalizing seen with
  | nil => simp [uniqueGo]
  | cons r rest ih =>
      simp only [uniqueGo]
      split
      · exact (ih seen).cons r
      · exact (ih _).cons₂ r

/-- Every message yielded by `uniqueGo` is the first record of the
batch bearing its id. -/
theorem uniqueGo_first {batch : List RawMsg} {seen : List (Option String)}
    {m : Message} (h : m ∈ uniqueGo batch seen) :
    ∃ pre post, batch = pre ++ m.msg :: post ∧
      ∀ r ∈ pre, (Message.mk r).id ≠ m.id := by
  induction batch generalizing seen with
  | nil => simp [uniqueGo] at h
  | cons r rest ih =>
      simp only [uniqueGo] at h
      split at h
      · rcases ih h with ⟨pre, post, heq, hpre⟩
        refine ⟨r :: pre, post, by simp [heq], ?_⟩
        intro r' hr'
        rcases List.mem_cons.mp hr' with rfl | hr'
        · intro hc
          exact (uniqueGo_mem h).1 (hc ▸ (by assumption))
        · exact hpre r' hr'
      · rcases List.mem_cons.mp h with rfl | hmem
        · exact ⟨[], rest, rfl, by simp⟩
        · rcases ih hmem with ⟨pre, post, heq, hpre⟩
          refine ⟨r :: pre, post, by simp [heq], ?_⟩
          intro r' hr'
          rcases List.mem_cons.mp hr' with rfl | hr'
          · intro hc
            exact (uniqueGo_mem hmem).1 (hc ▸ List.mem_cons_self _ _)
          · exact hpre r' hr'

/-- Every record of the batch whose id is not yet seen is represented
in `uniqueGo`'s output by a message with the same id. -/
theorem uniqueGo_covers {batch : List RawMsg} {seen : List (Option String)}
    {r : RawMsg} (hr : r ∈ batch) (hs : (Message.mk r).id ∉ seen) :
    ∃ m ∈ uniqueGo batch seen, m.id = (Message.mk r).id := by
  induction batch generalizing seen with
  | nil => simp at hr
  | cons r0 rest ih =>
      simp only [uniqueGo]
      split
      · rcases List.mem_cons.mp hr with rfl | hr'
        · exact absurd (by assumption) hs
        · exact ih hr' hs
      · rcases List.mem_cons.mp hr with rfl | hr'
        · exact ⟨Message.mk r, List.mem_cons_self _ _, rfl⟩
        · by_cases hid : (Message.mk r).id = (Message.mk r0).id
          · exact ⟨Message.mk r0, List.mem_cons_self _ _, hid.symm⟩
          · rcases ih hr' (by
              intro hc
              rcases List.mem_cons.mp hc with h | h
              · exact hid h
              · exact hs h) with ⟨m, hm, hmid⟩
            exact ⟨m, List.mem_cons_of_mem _ hm, hmid⟩

/-! ### C4, C5, C6: the deduplicator -/

/-- C4: `_unique_messages` yields no two messages with the same id, each
emitted message is the first record of the batch bearing its id (later
duplicates are dropped with no error), and emission order equals
first-occurrence order in the input (the underlying records form a
sublist of the batch, and every input id is represented). -/
theorem unique_messages_spec (batch : List RawMsg) :
    ((_unique_messages batch).map Message.id).Nodup ∧
    List.Sublist ((_unique_messages batch).map Message.msg) batch ∧
    (∀ m ∈ _unique_messages batch, ∃ pre post,
      batch = pre ++ m.msg :: post ∧ ∀ r ∈ pre, (Message.mk r).id ≠ m.id) ∧
    (∀ r ∈ batch, ∃ m ∈ _unique_messages batch, m.id = (Message.mk r).id) :=
  ⟨uniqueGo_nodup batch [], uniqueGo_sublist batch [],
    fun _ hm => uniqueGo_first hm,
    fun _ hr => uniqueGo_covers hr (by simp)⟩

/-- C4 witness: scenario A, ids `m1, m2, m2` yield exactly `[m1, m2]`,
instantiating the specification at that batch. -/
theorem unique_messages_spec_witness :
    _unique_messages [rAlice, rBob, rBobDup] = [⟨rAlice⟩, ⟨rBob⟩] ∧
    (([(⟨rAlice⟩ : Message), ⟨rBob⟩]).map Message.id).Nodup :=
  ⟨by decide, by
    have h := (unique_messages_spec [rAlice, rBob, rBobDup]).1
    have he : _unique_messages [rAlice, rBob, rBobDup] = [⟨rAlice⟩, ⟨rBob⟩] := by
      decide
    rwa [he] at h⟩

/-- C5 counterexample: two distinct id-less records are deduplicated
against each other — only the first is yielded, refuting that each
id-less record is treated as always-new. -/
theorem noid_always_new_counterexample :
    rNoId1.messageId = none ∧ rNoId2.messageId = none ∧ rNoId1 ≠ rNoId2 ∧
    _unique_messages [rNoId1, rNoId2] = [⟨rNoId1⟩] := by
  exact ⟨rfl, rfl, by decide, by decide⟩

/-- In a message list with pairwise-distinct ids, at most one message
can carry any given id. -/
theorem countP_id_le_one {l : List Message} (v : Option String)
    (h : (l.map Message.id).Nodup) :
    l.countP (fun m => decide (m.id = v)) ≤ 1 := by
  induction l with
  | nil => simp
  | cons m rest ih =>
      simp only [List.map_cons, List.nodup_cons] at h
      rw [List.countP_cons]
      by_cases hv : m.id = v
      · have hz : rest.countP (fun m => decide (m.id = v)) = 0 := by
          rw [List.countP_eq_zero]
          intro x hx
          simp only [decide_eq_true_eq]
          intro hc
          exact h.1 (hv ▸ hc ▸ List.mem_map_of_mem Message.id hx)
        simp [hv, hz]
      · have hd : (decide (m.id = v)) = false := by simp [hv]
        simpa [hd] using ih h.2

/-- C5 amended: id-less records all collide under the single absent key
`None`: at most one id-less message is ever emitted per batch, and any
emitted id-less message is the first id-less record of the batch. -/
theorem noid_collapsed (batch : List RawMsg) :
    ((_unique_messages batch).countP (fun m => decide (m.id = none))) ≤ 1 ∧
    (∀ m ∈ _unique_messages batch, m.id = none → ∃ pre post,
      batch = pre ++ m.msg :: post ∧ ∀ r ∈ pre, (Message.mk r).id ≠ none) := by
  constructor
  · exact countP_id_le_one none (uniqueGo_nodup batch [])
  · intro m hm hid
    rcases uniqueGo_first hm with ⟨pre, post, heq, hpre⟩
    exact ⟨pre, post, heq, fun r hr => hid ▸ hpre r hr⟩

/-- C5 amended witness: in the batch `[rNoId1, rNoId2]` the emitted
id-less message is the first record, with no id-less record before it. -/
theorem noid_collapsed_witness :
    ∃ pre post, ([rNoId1, rNoId2] : List RawMsg) =
        pre ++ (Message.mk rNoId1).msg :: post ∧
      ∀ r ∈ pre, (Message.mk r).id ≠ none :=
  (noid_collapsed [rNoId1, rNoId2]).2 ⟨rNoId1⟩ (by decide) (by decide)

/-- Re-running `uniqueGo` on a list of messages whose ids are already
pairwise distinct and disjoint from the seen set reproduces the list. -/
theorem uniqueGo_of_nodup (l : List Message) (seen : List (Option String))
    (hnd : (l.map Message.id).Nodup) (hs : ∀ m ∈ l, m.id ∉ seen) :
    uniqueGo (l.map Message.msg) seen = l := by
  induction l generalizing seen with
  | nil => rfl
  | cons m rest ih =>
      simp only [List.map_cons, uniqueGo]
      have hm : (Message.mk m.msg) = m := rfl
      rw [hm]
      rw [if_neg (hs m (List.mem_cons_self _ _))]
      congr 1
      refine ih _ (List.nodup_cons.mp (by simpa using hnd)).2 ?_
      intro x hx hc
      rcases List.mem_cons.mp hc with h | h
      · exact (List.nodup_cons.mp (by simpa using hnd)).1
          (h ▸ List.mem_map_of_mem Message.id hx)
      · exact hs x (List.mem_cons_of_mem _ hx) h

/-- C6: the deduplicator is idempotent — applying `_unique_messages` to
the records underlying its own output yields that same output. -/
theorem unique_messages_idempotent (batch : List RawMsg) :
    _unique_messages ((_unique_messages batch).map Message.msg) =
      _unique_messages batch :=
  uniqueGo_of_nodup (uniqueGo batch []) [] (uniqueGo_nodup batch [])
    (by simp)

/-! ### Lemmas about the thread resolver -/

/-- When the resolver loop succeeds, the yielded ids are pairwise
distinct and none of them was in the incoming `found` list. -/
theorem resolveGo_ok_nodup (arch : Archive) :
    ∀ (cands : List Message) (found : List (Option String)) (l : List Message),
      resolveGo arch cands found = .ok l →
      (l.map Message.id).Nodup ∧ ∀ m ∈ l, m.id ∉ found := by
  intro cands
  induction cands with
  | nil =>
      intro found l h
      simp only [resolveGo] at h
      cases h
      simp
  | cons m rest ih =>
      intro found l h
      simp only [resolveGo] at h
      split at h
      · rcases ih found l h with ⟨h1, h2⟩
        exact ⟨h1, h2⟩
      · split at h
        · cases hg : get_thread_root arch m with
          | none => rw [hg] at h; cases h
          | some root =>
              rw [hg] at h
              dsimp only at h
              split at h
              · exact ih found l h
              · cases hrec : resolveGo arch rest (root.id :: found) with
                | error e => rw [hrec] at h; cases h
                | ok l' =>
                    rw [hrec] at h
                    cases h
                    rcases ih _ l' hrec with ⟨h1, h2⟩
                    constructor
                    · refine List.nodup_cons.mpr ⟨?_, h1⟩
                      intro hc
                      rcases List.mem_map.mp hc with ⟨x, hx, hxid⟩
                      exact h2 x hx (hxid ▸ List.mem_cons_self _ _)
                    · intro x hx
                      rcases List.mem_cons.mp hx with rfl | hx'
                      · assumption
                      · exact fun hc =>
                          h2 x hx' (List.mem_cons_of_mem _ hc)
        · cases hrec : resolveGo arch rest (m.id :: found) with
          | error e => rw [hrec] at h; cases h
          | ok l' =>
              rw [hrec] at h
              cases h
              rcases ih _ l' hrec with ⟨h1, h2⟩
              constructor
              · refine List.nodup_cons.mpr ⟨?_, h1⟩
                intro hc
                rcases List.mem_map.mp hc with ⟨x, hx, hxid⟩
                exact h2 x hx (hxid ▸ List.mem_cons_self _ _)
              · intro x hx
                rcases List.mem_cons.mp hx with rfl | hx'
                · assumption
                · exact fun hc => h2 x hx' (List.mem_cons_of_mem _ hc)

/-- When the resolver loop succeeds, every yielded message is a thread
root. -/
theorem resolveGo_ok_roots (arch : Archive) :
    ∀ (cands : List Message) (found : List (Option String)) (l : List Message),
      resolveGo arch cands found = .ok l →
      ∀ m ∈ l, m.is_thread_root = true := by
  intro cands
  induction cands with
  | nil =>
      intro found l h
      simp only [resolveGo] at h
      cases h
      simp
  | cons m rest ih =>
      intro found l h
      simp only [resolveGo] at h
      split at h
      · exact ih found l h
      · split at h
        · cases hg : get_thread_root arch m with
          | none => rw [hg] at h; cases h
          | some root =>
              rw [hg] at h
              dsimp only at h
              split at h
              · exact ih found l h
              · cases hrec : resolveGo arch rest (root.id :: found) with
                | error e => rw [hrec] at h; cases h
                | ok l' =>
                    rw [hrec] at h
                    cases h
                    intro x hx
                    rcases List.mem_cons.mp hx with rfl | hx'
                    · have := List.find?_some hg
                      simpa [Message.is_thread_root] using this
                    · exact ih _ l' hrec x hx'
        · cases hrec : resolveGo arch rest (m.id :: found) with
          | error e => rw [hrec] at h; cases h
          | ok l' =>
              rw [hrec] at h
              cases h
              intro x hx
              rcases List.mem_cons.mp hx with rfl | hx'
              · simp only [Bool.not_eq_false] at *
                assumption
              · exact ih _ l' hrec x hx'

/-! ### C1, C2: resolver invariants -/

/-- C1: a successful resolution run yields no two messages with equal
id — each thread root is emitted at most once. -/
theorem get_all_threads_nodup_ids (arch : Archive) (l : List Message)
    (h : get_all_threads arch = .ok l) :
    (l.map Message.id).Nodup :=
  (resolveGo_ok_nodup arch (_unique_messages arch.searchBatch) [] l h).1

/-- C1 witness: scenario D — two non-root candidates of the same thread
resolve to the single root `m0`, and the yielded ids are distinct. -/
theorem get_all_threads_nodup_ids_witness :
    (([(⟨rRoot⟩ : Message)]).map Message.id).Nodup :=
  get_all_threads_nodup_ids archD [⟨rRoot⟩] (by rfl)

/-- C2: every message yielded by a successful resolution run satisfies
`is_thread_root`. -/
theorem get_all_threads_all_roots (arch : Archive) (l : List Message)
    (h : get_all_threads arch = .ok l) :
    ∀ m ∈ l, m.is_thread_root = true :=
  resolveGo_ok_roots arch (_unique_messages arch.searchBatch) [] l h

/-- C2 witness: in scenario D the yielded message `m0` is a thread root. -/
theorem get_all_threads_all_roots_witness :
    (⟨rRoot⟩ : Message).is_thread_root = true :=
  get_all_threads_all_roots archD [⟨rRoot⟩] (by rfl) ⟨rRoot⟩ (by simp)

/-! ### C7: rootless thread export -/

/-- C7 counterexample: when the thread export of the non-root candidate
`rReply` contains no parentless message, `__get_thread_root` falls
through with no value, and `get_all_threads` then fails (the `root.id()`
attribute access on `None` raises) instead of silently yielding nothing:
the run produces an error, not a sequence that skips the candidate. -/
theorem no_root_silent_counterexample :
    (⟨rReply⟩ : Message).is_thread_root = false ∧
    get_thread_root archNoRoot ⟨rReply⟩ = none ∧
    get_all_threads archNoRoot = .error () ∧
    ∀ l : List Message, get_all_threads archNoRoot ≠ .ok l :=
  ⟨rfl, rfl, rfl, fun _ h => Except.noConfusion h⟩

/-- C7 amended: when a non-root candidate's thread export contains no
parentless message, the root lookup falls through returning no value,
and the resolution run then signals a failure (the attribute access on
the missing root raises) rather than silently yielding nothing for that
candidate. -/
theorem no_root_signals_error (arch : Archive) (m : Message)
    (rest : List Message)
    (h1 : _unique_messages arch.searchBatch = m :: rest)
    (h2 : m.is_thread_root = false)
    (h3 : get_thread_root arch m = none) :
    get_all_threads arch = .error () := by
  unfold get_all_threads
  rw [h1]
  simp only [resolveGo]
  rw [if_neg (by simp)]
  rw [if_pos h2, h3]

/-- C7 amended witness: the degenerate archive `archNoRoot` satisfies
the hypotheses and the resolution run errors out. -/
theorem no_root_signals_error_witness :
    get_all_threads archNoRoot = .error () :=
  no_root_signals_error archNoRoot ⟨rReply⟩ [] (by decide) rfl rfl

/-! ### C3: classifier partition -/

/-- C3: over the same resolved-thread sequence, `NewThreads.fetch` keeps
exactly the roots satisfying `is_from_user AND is_between_dates`,
`InvolvedThreads.fetch` keeps exactly those where that conjunction
fails, and every resolved thread lands in exactly one of the two views. -/
theorem classifier_partition (arch : Archive) (user : String)
    (since until_ : Date) (l : List Message)
    (h : get_all_threads arch = .ok l) :
    ∃ ns inv : List Message,
      NewThreads.fetch arch user since until_ = .ok ns ∧
      InvolvedThreads.fetch arch user since until_ = .ok inv ∧
      (∀ m : Message, m ∈ ns ↔ m ∈ l ∧
        (m.is_from_user user && m.is_between_dates since until_) = true) ∧
      (∀ m : Message, m ∈ inv ↔ m ∈ l ∧
        ¬ (m.is_from_user user && m.is_between_dates since until_) = true) ∧
      (∀ m ∈ l, (m ∈ ns ∧ m ∉ inv) ∨ (m ∉ ns ∧ m ∈ inv)) := by
  refine ⟨l.filter (fun m => m.is_from_user user && m.is_between_dates since until_),
    l.filter (fun m => !m.is_from_user user || !m.is_between_dates since until_),
    ?_, ?_, ?_, ?_, ?_⟩
  · unfold NewThreads.fetch
    rw [h]
    rfl
  · unfold InvolvedThreads.fetch
    rw [h]
    rfl
  · intro m
    simp [List.mem_filter]
  · intro m
    simp only [List.mem_filter, Bool.or_eq_true, Bool.not_eq_true']
    constructor
    · rintro ⟨hm, hp⟩
      refine ⟨hm, ?_⟩
      rcases hp with hp | hp <;> simp [hp]
    · rintro ⟨hm, hp⟩
      refine ⟨hm, ?_⟩
      rcases Bool.not_eq_true _ ▸ hp with h'
      cases ha : m.is_from_user user <;> cases hb : m.is_between_dates since until_ <;>
        simp_all
  · intro m hm
    by_cases hp : (m.is_from_user user && m.is_between_dates since until_) = true
    · left
      constructor
      · exact List.mem_filter.mpr ⟨hm, hp⟩
      · intro hc
        rcases List.mem_filter.mp hc with ⟨-, hq⟩
        rcases (Bool.and_eq_true _ _).mp hp with ⟨h1, h2⟩
        simp [h1, h2] at hq
    · right
      constructor
      · intro hc
        exact hp (List.mem_filter.mp hc).2
      · refine List.mem_filter.mpr ⟨hm, ?_⟩
        cases ha : m.is_from_user user <;> cases hb : m.is_between_dates since until_ <;>
          simp_all

/-- C3 witness: scenario B — a single root from alice inside the window
appears in the started view and not in the involved view. -/
theorem classifier_partition_witness :
    ∃ ns inv : List Message,
      NewThreads.fetch archB "alice@x.org" ⟨10⟩ ⟨20⟩ = .ok ns ∧
      InvolvedThreads.fetch archB "alice@x.org" ⟨10⟩ ⟨20⟩ = .ok inv ∧
      (∀ m : Message, m ∈ ns ↔ m ∈ [(⟨rAlice⟩ : Message)] ∧
        (m.is_from_user "alice@x.org" && m.is_between_dates ⟨10⟩ ⟨20⟩) = true) ∧
      (∀ m : Message, m ∈ inv ↔ m ∈ [(⟨rAlice⟩ : Message)] ∧
        ¬ (m.is_from_user "alice@x.org" && m.is_between_dates ⟨10⟩ ⟨20⟩) = true) ∧
      (∀ m ∈ [(⟨rAlice⟩ : Message)],
        (m ∈ ns ∧ m ∉ inv) ∨ (m ∉ ns ∧ m ∈ inv)) :=
  classifier_partition archB "alice@x.org" ⟨10⟩ ⟨20⟩ [⟨rAlice⟩] (by rfl)

/-! ### C8: date-window inclusivity -/

/-- C8: `is_between_dates` is inclusive on both bounds and compares only
the date component — a message dated exactly on `since` or `until` is
inside the window, one dated the day before `since` or the day after
`until` is outside, and two messages with the same calendar date but
different times of day are classified identically. -/
theorem is_between_dates_inclusive (r : RawMsg) (since until_ : Date)
    (h : since.date ≤ until_.date) :
    ((Message.mk r).date.day = since.date →
      (Message.mk r).is_between_dates since until_ = true) ∧
    ((Message.mk r).date.day = until_.date →
      (Message.mk r).is_between_dates since until_ = true) ∧
    ((Message.mk r).date.day = since.date - 1 →
      (Message.mk r).is_between_dates since until_ = false) ∧
    ((Message.mk r).date.day = until_.date + 1 →
      (Message.mk r).is_between_dates since until_ = false) ∧
    (∀ r2 : RawMsg, r2.dateVal.day = r.dateVal.day →
      (Message.mk r2).is_between_dates since until_ =
        (Message.mk r).is_between_dates since until_) := by
  refine ⟨?_, ?_, ?_, ?_, ?_⟩
  · intro hd
    simp only [Message.date] at hd
    simp only [Message.is_between_dates, Message.date,
      Bool.and_eq_true, decide_eq_true_eq]
    omega
  · intro hd
    simp only [Message.date] at hd
    simp only [Message.is_between_dates, Message.date,
      Bool.and_eq_true, decide_eq_true_eq]
    omega
  · intro hd
    simp only [Message.date] at hd
    simp only [Message.is_between_dates, Message.date]
    have h1 : decide (since.date ≤ r.dateVal.day) = false := by
      simp only [decide_eq_false_iff_not]
      omega
    simp [h1]
  · intro hd
    simp only [Message.date] at hd
    simp only [Message.is_between_dates, Message.date]
    have h2 : decide (r.dateVal.day ≤ until_.date) = false := by
      simp only [decide_eq_false_iff_not]
      omega
    simp [h2]
  · intro r2 hd
    simp only [Message.is_between_dates, Message.date, hd]

/-- C8 witness: with the window `[10, 20]`, the message dated day 10
(whatever its time of day, here seconds 7) is inside the window. -/
theorem is_between_dates_inclusive_witness :
    (Message.mk ⟨some "w@x", none, some "w", "w@x", ⟨10, 7⟩⟩).is_between_dates
      ⟨10⟩ ⟨20⟩ = true :=
  (is_between_dates_inclusive ⟨some "w@x", none, some "w", "w@x", ⟨10, 7⟩⟩
    ⟨10⟩ ⟨20⟩ (by decide)).1 rfl

/-! ### C9: message permalink -/

/-- C9 counterexample: with a configured base URL that carries a path
component, `urljoin` replaces that path, so the permalink is not the
base URL followed by `/r/<id>/`; the claim also fails for a base URL
with a trailing slash. -/
theorem message_url_counterexample :
    _get_message_url "https://lore.kernel.org/list/" ⟨rAlice⟩ =
      "https://lore.kernel.org/r/m1@x/" ∧
    _get_message_url "https://lore.kernel.org/list/" ⟨rAlice⟩ ≠
      "https://lore.kernel.org/list/" ++ "/r/" ++
        pyStr (Message.id ⟨rAlice⟩) ++ "/" := by
  constructor
  · rfl
  · decide

/-- C9 amended: `_get_message_url` is pure string construction yielding
the scheme-and-authority prefix of the base URL followed by
`/r/<messageId>/`; this equals `<baseURL>/r/<messageId>/` exactly when
the configured base URL consists of scheme and authority only (no path
and no trailing slash). -/
theorem message_url_spec (url : String) (m : Message)
    (h : schemeAndAuthority url = url) :
    _get_message_url url m =
      schemeAndAuthority url ++ "/r/" ++ pyStr m.id ++ "/" ∧
    _get_message_url url m = url ++ "/r/" ++ pyStr m.id ++ "/" := by
  have hgen : _get_message_url url m =
      schemeAndAuthority url ++ "/r/" ++ pyStr m.id ++ "/" := by
    unfold _get_message_url get_url urljoin_abspath
    simp [String.append_assoc]
  exact ⟨hgen, by rw [hgen, h]⟩

/-- C9 amended witness: for the pathless base URL of the plugin's
config example, the permalink is the base URL followed by `/r/<id>/`. -/
theorem message_url_spec_witness :
    _get_message_url "https://lore.kernel.org" ⟨rAlice⟩ =
      "https://lore.kernel.org" ++ "/r/" ++ pyStr (Message.id ⟨rAlice⟩) ++ "/" :=
  (message_url_spec "https://lore.kernel.org" ⟨rAlice⟩ (by rfl)).2

/-! ### C10: subject extraction -/

/-- The tokens produced by `str.split()` are nonempty and contain no
whitespace character, provided the running accumulator does not either. -/
theorem pySplitAux_tokens (l : List Char) :
    ∀ (acc : List Char), (∀ c ∈ acc, isPySpace c = false) →
      ∀ t ∈ pySplitAux l acc, t ≠ [] ∧ ∀ c ∈ t, isPySpace c = false := by
  induction l with
  | nil =>
      intro acc hacc t ht
      simp only [pySplitAux] at ht
      split at ht
      · simp at ht
      · rcases List.mem_singleton.mp ht with rfl
        refine ⟨?_, ?_⟩
        · intro hc
          rename_i hne
          rw [List.isEmpty_iff] at hne
          exact hne (by simpa using congrArg List.reverse hc)
        · intro c hc
          exact hacc c (List.mem_reverse.mp hc)
  | cons c0 rest ih =>
      intro acc hacc t ht
      simp only [pySplitAux] at ht
      split at ht
      · split at ht
        · exact ih [] (by simp) t ht
        · rcases List.mem_cons.mp ht with rfl | ht'
          · refine ⟨?_, ?_⟩
            · intro hc
              rename_i hne
              rw [List.isEmpty_iff] at hne
              exact hne (by simpa using congrArg List.reverse hc)
            · intro c hc
              exact hacc c (List.mem_reverse.mp hc)
          · exact ih [] (by simp) t ht'
      · refine ih (c0 :: acc) ?_ t ht
        intro c hc
        rcases List.mem_cons.mp hc with rfl | hc'
        · rename_i hns
          exact Bool.not_eq_true _ ▸ hns
        · exact hacc c hc'

/-- A list of whitespace-free characters trivially has no two adjacent
whitespace characters. -/
theorem chain_of_no_ws (t : List Char) :
    (∀ c ∈ t, isPySpace c = false) →
    List.Chain' (fun a b => isPySpace a = false ∨ isPySpace b = false) t := by
  induction t with
  | nil =>
      intro _
      simp
  | cons a t iht =>
      intro htc
      rw [List.chain'_cons']
      exact ⟨fun y _ => Or.inl (htc a (List.mem_cons_self _ _)),
        iht (fun c hc => htc c (List.mem_cons_of_mem _ hc))⟩

/-- Joining nonempty whitespace-free tokens with single spaces yields a
character list in which no two adjacent characters are both whitespace,
whose only whitespace character is the plain space, and which starts
with a non-whitespace character when nonempty. -/
theorem joinWithSpace_spec (ts : List (List Char))
    (h : ∀ t ∈ ts, t ≠ [] ∧ ∀ c ∈ t, isPySpace c = false) :
    List.Chain' (fun a b => isPySpace a = false ∨ isPySpace b = false)
        (joinWithSpace ts) ∧
    (∀ c ∈ joinWithSpace ts, isPySpace c = true → c = ' ') ∧
    (ts ≠ [] → ∃ d ds, joinWithSpace ts = d :: ds ∧ isPySpace d = false) := by
  induction ts with
  | nil => simp [joinWithSpace]
  | cons t ts ih =>
      rcases h t (List.mem_cons_self _ _) with ⟨htne, htc⟩
      have hchain_t := chain_of_no_ws t htc
      cases ts with
      | nil =>
          refine ⟨by simpa [joinWithSpace] using hchain_t, ?_, ?_⟩
          · intro c hc hw
            exact absurd hw (by simp [htc c (by simpa [joinWithSpace] using hc)])
          · intro _
            cases t with
            | nil => exact absurd rfl htne
            | cons d ds =>
                exact ⟨d, ds, by simp [joinWithSpace],
                  htc d (List.mem_cons_self _ _)⟩
      | cons t2 ts2 =>
          have hrest := ih (fun x hx => h x (List.mem_cons_of_mem _ hx))
          rcases hrest with ⟨hchain_r, hws_r, hhead_r⟩
          rcases hhead_r (by simp) with ⟨d, ds, hjoin, hd⟩
          have hjw : joinWithSpace (t :: t2 :: ts2) =
              t ++ ' ' :: joinWithSpace (t2 :: ts2) := rfl
          refine ⟨?_, ?_, ?_⟩
          · rw [hjw]
            apply List.Chain'.append hchain_t
            · rw [List.chain'_cons']
              refine ⟨?_, hchain_r⟩
              intro y hy
              rw [hjoin] at hy
              simp only [List.head?_cons, Option.mem_some_iff] at hy
              exact Or.inr (hy ▸ hd)
            · intro x hx y hy
              simp only [List.head?_cons, Option.mem_some_iff] at hy
              left
              exact htc x (List.mem_of_mem_getLast? hx)
          · intro c hc hw
            rw [hjw] at hc
            rcases List.mem_append.mp hc with hc | hc
            · exact absurd hw (by simp [htc c hc])
            · rcases List.mem_cons.mp hc with rfl | hc'
              · rfl
              · exact hws_r c hc' hw
          · intro _
            cases t with
            | nil => exact absurd rfl htne
            | cons d0 ds0 =>
                exact ⟨d0, ds0 ++ ' ' :: joinWithSpace (t2 :: ts2),
                  by rw [hjw]; rfl, htc d0 (List.mem_cons_self _ _)⟩

/-- C10: `Message.subject` is partial at the public interface — for a
record with no `Subject` header the whitespace-collapsing steps are
applied to an absent value and the accessor fails; for a record with a
`Subject` header it returns the header with line folds and runs of
whitespace collapsed to single spaces (the result contains no two
adjacent whitespace characters and its only whitespace is the plain
space). -/
theorem subject_partiality (r : RawMsg) :
    (r.subjectHdr = none →
      Message.subject ⟨r⟩ = .error "AttributeError") ∧
    (∀ s, r.subjectHdr = some s → ∃ t : String,
      Message.subject ⟨r⟩ = .ok t ∧
      t.toList = joinWithSpace (pySplit (joinWithSpace (pySplitlines s.toList))) ∧
      List.Chain' (fun a b => isPySpace a = false ∨ isPySpace b = false)
        t.toList ∧
      ∀ c ∈ t.toList, isPySpace c = true → c = ' ') := by
  constructor
  · intro h
    simp [Message.subject, h]
  · intro s hs
    refine ⟨String.mk (joinWithSpace (pySplit
      (joinWithSpace (pySplitlines s.toList)))), ?_, rfl, ?_, ?_⟩
    · simp [Message.subject, hs]
    · exact (joinWithSpace_spec _
        (pySplitAux_tokens _ [] (by simp))).1
    · exact (joinWithSpace_spec _
        (pySplitAux_tokens _ [] (by simp))).2.1

/-- C10 witness: a record with no `Subject` header makes the accessor
fail, and one with a folded multi-line subject collapses to single
spaces. -/
theorem subject_partiality_witness :
    Message.subject ⟨⟨some "m9@x", none, none, "a@x", ⟨1, 0⟩⟩⟩ =
      .error "AttributeError" :=
  (subject_partiality ⟨some "m9@x", none, none, "a@x", ⟨1, 0⟩⟩).1 rfl
